import Mathlib

/-!
# Verification of `benchmark_code/cut.py`

A shallow embedding of the simplistic `cut` utility: the program parses a
list of 1-based field numbers, subtracts one from each, then for every input
line (over the concatenation of the given files, or standard input) strips
trailing newlines, splits on tabs, selects the requested indices with Python
indexing semantics, rejoins with tabs and prints the result followed by a
newline.  An out-of-range index raises an uncaught `IndexError`, modelled as
`none` / a `false` completion flag.
-/

namespace Cut

/-- Python `line.rstrip('\n')`: remove every trailing newline character. -/
def rstripNl (s : List Char) : List Char :=
  ((s.reverse).dropWhile (fun c => c = '\n')).reverse

/-- Python `s.split('\t')`: split at each tab, keeping empty fields; the
empty string splits into a single empty field. -/
def splitTab : List Char → List (List Char)
  | [] => [[]]
  | c :: cs =>
    if c = '\t' then [] :: splitTab cs
    else
      match splitTab cs with
      | [] => [[c]]
      | f :: fs => (c :: f) :: fs

/-- Python `'\t'.join(fields)`. -/
def joinTab : List (List Char) → List Char
  | [] => []
  | [f] => f
  | f :: g :: fs => f ++ '\t' :: joinTab (g :: fs)

/-- Python list indexing `xs[i]`: a negative index counts from the end of
the list; an out-of-range index raises `IndexError`, modelled as `none`. -/
def pyIndex {α : Type} (xs : List α) (i : Int) : Option α :=
  if i < 0 then
    if (xs.length : Int) + i < 0 then none
    else xs.get? ((xs.length : Int) + i).toNat
  else xs.get? i.toNat

/-- The list comprehension `[fields[x] for x in field_indicies]`: `none`
as soon as any lookup is out of range. -/
def selectFields (fs : List (List Char)) : List Int → Option (List (List Char))
  | [] => some []
  | i :: is =>
    match pyIndex fs i, selectFields fs is with
    | some a, some rest => some (a :: rest)
    | _, _ => none

/-- `field_indicies = [x - 1 for x in args.fields]`. -/
def field_indicies (fields : List Int) : List Int :=
  fields.map (fun x => x - 1)

/-- One iteration of the main loop on a single input line:
`'\t'.join([fields[x] for x in field_indicies])` applied to
`line.rstrip('\n').split('\t')`; `none` models the uncaught `IndexError`. -/
def processLine (idxs : List Int) (line : List Char) : Option (List Char) :=
  (selectFields (splitTab (rstripNl line)) idxs).map joinTab

/-- `fileinput` line splitting of one file's content: every line keeps its
terminating newline, except a final line that is not newline-terminated. -/
def splitLinesKeep : List Char → List (List Char)
  | [] => []
  | c :: cs =>
    if c = '\n' then ['\n'] :: splitLinesKeep cs
    else
      match splitLinesKeep cs with
      | [] => [[c]]
      | l :: ls => (c :: l) :: ls

/-- The main loop over the already-split input lines.  Each successful line
appends the joined selection plus one newline (the `print` statement) to
standard output; an `IndexError` stops the loop at once: the flag becomes
`false`, later lines are not processed, output already written remains. -/
def runLines (idxs : List Int) : List (List Char) → List Char × Bool
  | [] => ([], true)
  | l :: ls =>
    match processLine idxs l with
    | none => ([], false)
    | some o => (o ++ '\n' :: (runLines idxs ls).1, (runLines idxs ls).2)

/-- Run the whole program on the given file contents (`fileinput.input`
concatenates their line streams; a singleton list models standard input):
the characters written to standard output, and `true` for a normal exit. -/
def cutRun (fields : List Int) (contents : List (List Char)) : List Char × Bool :=
  runLines (field_indicies fields) ((contents.map splitLinesKeep).flatten)

/-- Process exit status: 0 after a normal pass, 1 on an uncaught fault. -/
def exitCode (fields : List Int) (contents : List (List Char)) : Nat :=
  if (cutRun fields contents).2 then 0 else 1

/-! ## Helper lemmas -/

theorem splitTab_ne_nil (s : List Char) : splitTab s ≠ [] := by
  cases s with
  | nil => simp [splitTab]
  | cons c cs =>
    simp only [splitTab]
    split
    · simp
    · split
      · simp
      · simp

theorem joinTab_splitTab (s : List Char) : joinTab (splitTab s) = s := by
  induction s with
  | nil => rfl
  | cons c cs ih =>
    simp only [splitTab]
    split
    · rename_i hc
      rcases hf : splitTab cs with _ | ⟨f, fs⟩
      · exact absurd hf (splitTab_ne_nil cs)
      · rw [hf] at ih
        subst hc
        simpa [joinTab] using ih
    · rename_i hc
      rcases hf : splitTab cs with _ | ⟨f, fs⟩
      · exact absurd hf (splitTab_ne_nil cs)
      · rw [hf] at ih
        cases fs with
        | nil => simpa [joinTab] using congrArg (c :: ·) ih
        | cons g fs => simpa [joinTab] using congrArg (c :: ·) ih

theorem pyIndex_of_nonneg {α : Type} (xs : List α) (i : Int) (h : 0 ≤ i) :
    pyIndex xs i = xs.get? i.toNat := by
  simp [pyIndex, not_lt.mpr h]

theorem get?_eq_some_getD {α : Type} (l : List α) (n : Nat) (d : α)
    (h : n < l.length) : l.get? n = some (l.getD n d) := by
  rw [List.get?_eq_get h, List.getD_eq_get?, List.get?_eq_get h]
  rfl

/-- Selecting 1-based positions that are all within range: each lookup
succeeds and returns the field at the 0-based position. -/
theorem selectFields_map_sub_one (fs : List (List Char)) (ps : List Int)
    (h : ∀ p ∈ ps, 1 ≤ p ∧ p ≤ (fs.length : Int)) :
    selectFields fs (ps.map (fun x => x - 1)) =
      some (ps.map (fun p => fs.getD (p - 1).toNat [])) := by
  induction ps with
  | nil => rfl
  | cons p ps ih =>
    obtain ⟨hp1, hp2⟩ := h p (List.mem_cons_self p ps)
    have hnn : (0 : Int) ≤ p - 1 := by omega
    have hlt : (p - 1).toNat < fs.length := by omega
    simp only [List.map_cons, selectFields, pyIndex_of_nonneg fs (p - 1) hnn,
      get?_eq_some_getD fs (p - 1).toNat [] hlt,
      ih (fun q hq => h q (List.mem_cons_of_mem p hq))]

/-- A single out-of-range lookup makes the whole selection fault. -/
theorem selectFields_eq_none (fs : List (List Char)) (is : List Int) (i : Int)
    (hi : i ∈ is) (h : pyIndex fs i = none) : selectFields fs is = none := by
  induction is with
  | nil => cases hi
  | cons j js ih =>
    rcases List.mem_cons.mp hi with rfl | hmem
    · simp [selectFields, h]
    · simp only [selectFields, ih hmem]
      rcases pyIndex fs j with _ | a <;> rfl

theorem rstripNl_append_newline (s : List Char) :
    rstripNl (s ++ ['\n']) = rstripNl s := by
  simp [rstripNl, List.reverse_append, List.dropWhile_cons]

theorem rstripNl_of_not_mem (s : List Char) (h : '\n' ∉ s) : rstripNl s = s := by
  rcases hrev : s.reverse with _ | ⟨a, l⟩
  · have : s = [] := by simpa using congrArg List.reverse hrev
    simp [rstripNl, this]
  · have ha : a ∈ s := by
      rw [← List.mem_reverse, hrev]; exact List.mem_cons_self a l
    have hne : ¬(a = '\n') := fun e => h (e ▸ ha)
    simp only [rstripNl, hrev, List.dropWhile_cons, hne, decide_False,
      Bool.false_eq_true, if_false]
    rw [← hrev, List.reverse_reverse]

theorem rstripNl_replicate (s : List Char) :
    ∃ k, s = rstripNl s ++ List.replicate k '\n' := by
  refine ⟨(s.reverse.takeWhile (fun c => c = '\n')).length, ?_⟩
  have htw : s.reverse.takeWhile (fun c => c = '\n') =
      List.replicate (s.reverse.takeWhile (fun c => c = '\n')).length '\n' :=
    List.eq_replicate_of_mem (fun b hb => by
      simpa using List.mem_takeWhile_imp hb)
  conv_lhs => rw [← List.reverse_reverse s,
    ← List.takeWhile_append_dropWhile (fun c => c = '\n') s.reverse]
  rw [List.reverse_append, rstripNl]
  congr 1
  rw [htw, List.reverse_replicate]
  simp

theorem rstripNl_getLast?_ne (s : List Char) :
    (rstripNl s).getLast? ≠ some '\n' := by
  rw [rstripNl, List.getLast?_reverse]
  intro hcon
  have hne : s.reverse.dropWhile (fun c => c = '\n') ≠ [] := by
    intro he
    rw [he] at hcon
    simp at hcon
  have hhead := List.head_dropWhile_not (fun c => c = '\n') s.reverse hne
  rw [List.head?_eq_head hne] at hcon
  rw [Option.some.inj hcon] at hhead
  simp at hhead

theorem splitLinesKeep_cons_nl (cs : List Char) :
    splitLinesKeep ('\n' :: cs) = ['\n'] :: splitLinesKeep cs := by
  simp [splitLinesKeep]

theorem splitLinesKeep_cons_ne (ch : Char) (cs : List Char) (h : ¬ch = '\n')
    (l0 : List Char) (ls : List (List Char))
    (hsp : splitLinesKeep cs = l0 :: ls) :
    splitLinesKeep (ch :: cs) = (ch :: l0) :: ls := by
  simp [splitLinesKeep, h, hsp]

theorem splitLinesKeep_ne_nil (s : List Char) (h : s ≠ []) :
    splitLinesKeep s ≠ [] := by
  cases s with
  | nil => exact absurd rfl h
  | cons c cs =>
    simp only [splitLinesKeep]
    split
    · simp
    · split
      · simp
      · simp

/-- Every line produced by `fileinput` consists of newline-free characters
followed by at most one terminating newline. -/
theorem splitLinesKeep_mem (c : List Char) :
    ∀ l ∈ splitLinesKeep c, ∃ m, '\n' ∉ m ∧ (l = m ∨ l = m ++ ['\n']) := by
  induction c with
  | nil => intro l hl; simp [splitLinesKeep] at hl
  | cons ch cs ih =>
    intro l hl
    simp only [splitLinesKeep] at hl
    by_cases hch : ch = '\n'
    · rw [if_pos hch] at hl
      rcases List.mem_cons.mp hl with rfl | hmem
      · exact ⟨[], by simp, Or.inr (by simp)⟩
      · exact ih l hmem
    · rw [if_neg hch] at hl
      rcases hsp : splitLinesKeep cs with _ | ⟨l0, ls⟩
      · rw [hsp] at hl
        rcases List.mem_singleton.mp hl with rfl
        refine ⟨[ch], ?_, Or.inl rfl⟩
        intro hc
        exact hch (List.mem_singleton.mp hc).symm
      · rw [hsp] at hl
        rcases List.mem_cons.mp hl with rfl | hmem
        · obtain ⟨m, hm, hcase⟩ :=
            ih l0 (by rw [hsp]; exact List.mem_cons_self l0 ls)
          have hnm : '\n' ∉ ch :: m := by
            intro hc
            rcases List.mem_cons.mp hc with he | hc2
            · exact hch he.symm
            · exact hm hc2
          rcases hcase with h3 | h3
          · exact ⟨ch :: m, hnm, Or.inl (by rw [h3])⟩
          · exact ⟨ch :: m, hnm, Or.inr (by rw [h3]; simp)⟩
        · exact ih l (by rw [hsp]; exact List.mem_cons_of_mem l0 hmem)

/-- Splitting into lines distributes over content concatenation provided the
first content block is newline-terminated. -/
theorem splitLinesKeep_append (A B : List Char) (h : A.getLast? = some '\n') :
    splitLinesKeep (A ++ B) = splitLinesKeep A ++ splitLinesKeep B := by
  induction A with
  | nil => simp at h
  | cons a A ih =>
    cases A with
    | nil =>
      have ha : a = '\n' := by simpa using h
      subst ha
      simp [splitLinesKeep]
    | cons b A₂ =>
      have h2 : (b :: A₂).getLast? = some '\n' := by
        rwa [List.getLast?_cons_cons] at h
      have ihh := ih h2
      by_cases ha : a = '\n'
      · subst ha
        rw [List.cons_append, splitLinesKeep_cons_nl, splitLinesKeep_cons_nl,
          ihh, List.cons_append]
      · have hne : splitLinesKeep (b :: A₂) ≠ [] :=
          splitLinesKeep_ne_nil _ (by simp)
        rcases hsp : splitLinesKeep (b :: A₂) with _ | ⟨l0, ls⟩
        · exact absurd hsp hne
        · rw [hsp, List.cons_append] at ihh
          rw [List.cons_append,
            splitLinesKeep_cons_ne a (b :: A₂ ++ B) ha l0 (ls ++ splitLinesKeep B) ihh,
            splitLinesKeep_cons_ne a (b :: A₂) ha l0 ls hsp,
            List.cons_append]

theorem pyIndex_mem {α : Type} (xs : List α) (i : Int) (a : α)
    (h : pyIndex xs i = some a) : a ∈ xs := by
  unfold pyIndex at h
  split at h
  · split at h
    · cases h
    · exact List.get?_mem h
  · exact List.get?_mem h

theorem selectFields_mem (fs : List (List Char)) (is : List Int)
    (sel : List (List Char)) (h : selectFields fs is = some sel) :
    ∀ f ∈ sel, f ∈ fs := by
  induction is generalizing sel with
  | nil =>
    simp only [selectFields, Option.some.injEq] at h
    subst h
    intro f hf
    cases hf
  | cons i is ih =>
    simp only [selectFields] at h
    rcases hp : pyIndex fs i with _ | a <;> rw [hp] at h
    · cases h
    · rcases hs : selectFields fs is with _ | rest <;> rw [hs] at h
      · cases h
      · obtain rfl : a :: rest = sel := Option.some.inj h
        intro f hf
        rcases List.mem_cons.mp hf with rfl | hm
        · exact pyIndex_mem fs i f hp
        · exact ih rest hs f hm

theorem mem_joinTab_of_mem {a : Char} {f : List Char} :
    ∀ {fl : List (List Char)}, f ∈ fl → a ∈ f → a ∈ joinTab fl := by
  intro fl
  induction fl with
  | nil => intro h; cases h
  | cons g gs ih =>
    intro hf ha
    cases gs with
    | nil =>
      rcases List.mem_singleton.mp hf with rfl
      simpa [joinTab] using ha
    | cons g2 gs2 =>
      rcases List.mem_cons.mp hf with rfl | hmem
      · exact List.mem_append.mpr (Or.inl ha)
      · exact List.mem_append.mpr (Or.inr (List.mem_cons_of_mem _ (ih hmem ha)))

theorem mem_joinTab {a : Char} :
    ∀ {fl : List (List Char)}, a ∈ joinTab fl → a = '\t' ∨ ∃ f ∈ fl, a ∈ f := by
  intro fl
  induction fl with
  | nil => intro h; cases h
  | cons g gs ih =>
    intro h
    cases gs with
    | nil =>
      simp only [joinTab] at h
      exact Or.inr ⟨g, List.mem_singleton.mpr rfl, h⟩
    | cons g2 gs2 =>
      rcases List.mem_append.mp h with h1 | h2
      · exact Or.inr ⟨g, List.mem_cons_self g _, h1⟩
      · rcases List.mem_cons.mp h2 with rfl | h3
        · exact Or.inl rfl
        · rcases ih h3 with h4 | ⟨f2, hf2, ha⟩
          · exact Or.inl h4
          · exact Or.inr ⟨f2, List.mem_cons_of_mem _ hf2, ha⟩

/-- Characters of every split field come from the split string. -/
theorem splitTab_chars (s : List Char) (f : List Char) (hf : f ∈ splitTab s)
    (a : Char) (ha : a ∈ f) : a ∈ s := by
  rw [← joinTab_splitTab s]
  exact mem_joinTab_of_mem hf ha

/-- A successfully processed line whose characters have a newline at most as
a final terminator produces a newline-free output chunk. -/
theorem processLine_no_nl (idxs : List Int) (l o : List Char)
    (hm : ∃ m, '\n' ∉ m ∧ (l = m ∨ l = m ++ ['\n']))
    (h : processLine idxs l = some o) : '\n' ∉ o := by
  obtain ⟨m, hmnl, hcase⟩ := hm
  have hstrip : rstripNl l = m := by
    rcases hcase with h1 | h1 <;> rw [h1]
    · exact rstripNl_of_not_mem m hmnl
    · rw [rstripNl_append_newline]
      exact rstripNl_of_not_mem m hmnl
  rw [processLine, hstrip] at h
  rcases hs : selectFields (splitTab m) idxs with _ | sel <;> rw [hs] at h
  · cases h
  · obtain rfl : joinTab sel = o := by simpa using h
    intro hno
    rcases mem_joinTab hno with he | ⟨f, hf, hin⟩
    · exact absurd he (by decide)
    · exact hmnl (splitTab_chars m f (selectFields_mem _ _ _ hs f hf) '\n' hin)

/-- The loop stops at the first faulting line: output of the earlier lines
is kept, the faulting and all later lines contribute nothing, and the run
ends abnormally. -/
theorem runLines_fault (idxs : List Int) (pre post : List (List Char))
    (bad : List Char)
    (hpre : ∀ l ∈ pre, (processLine idxs l).isSome)
    (hbad : processLine idxs bad = none) :
    runLines idxs (pre ++ bad :: post) = ((runLines idxs pre).1, false) := by
  induction pre with
  | nil => simp [runLines, hbad]
  | cons l ls ih =>
    have hl := hpre l (List.mem_cons_self l ls)
    rcases ho : processLine idxs l with _ | o
    · rw [ho] at hl
      cases hl
    · have ihh := ih (fun x hx => hpre x (List.mem_cons_of_mem l hx))
      simp only [List.cons_append, runLines, ho, List.append_eq, ihh]

theorem runLines_count (idxs : List Int) (lines : List (List Char))
    (h : ∀ l ∈ lines, ∃ o, processLine idxs l = some o ∧ '\n' ∉ o) :
    (runLines idxs lines).1.count '\n' = lines.length ∧
      (runLines idxs lines).2 = true := by
  induction lines with
  | nil => simp [runLines]
  | cons l ls ih =>
    obtain ⟨o, ho, hno⟩ := h l (List.mem_cons_self l ls)
    obtain ⟨ih1, ih2⟩ := ih (fun x hx => h x (List.mem_cons_of_mem l hx))
    constructor
    · simp only [runLines, ho, List.count_append, List.count_cons, ih1,
        List.length_cons]
      rw [List.count_eq_zero.mpr hno]
      simp
    · simp only [runLines, ho, ih2]

theorem map_getD_range {α : Type} (l : List α) (d : α) :
    (List.range l.length).map (fun i => l.getD i d) = l := by
  induction l with
  | nil => rfl
  | cons a l ih =>
    rw [List.length_cons, List.range_succ_eq_map, List.map_cons, List.map_map]
    have hc : ((fun i => (a :: l).getD i d) ∘ Nat.succ) = fun i => l.getD i d := by
      funext i
      simp [List.getD_cons_succ]
    rw [List.getD_cons_zero, hc, ih]

example : splitTab "a\tb\tc".toList = ["a".toList, "b".toList, "c".toList] := by decide
example : splitTab [] = [[]] := by decide
example : rstripNl "a\n\n".toList = "a".toList := by decide
example : processLine (field_indicies ([1, 3] : List Int)) "alice\t30\teng".toList =
    some "alice\teng".toList := by decide
example : processLine (field_indicies [0]) [] = some [] := by decide
example : splitLinesKeep "a\nb".toList = ["a\n".toList, "b".toList] := by decide
example : cutRun [1] ["a".toList, "b\n".toList] = ("a\nb\n".toList, true) := by decide
example : cutRun [1] ["ab\n".toList] = ("ab\n".toList, true) := by decide

/-! ## Claim theorems -/

/-- C1: for every input line containing at least the maximum requested
1-based field position many tab-separated fields, the emitted output line is
the tab-join of the fields at the requested positions, in the order the
positions were given. -/
theorem C1_requested_fields_output (positions : List Int) (line : List Char)
    (hpos : ∀ p ∈ positions, 1 ≤ p)
    (hmax : ∀ p ∈ positions, p ≤ ((splitTab (rstripNl line)).length : Int)) :
    processLine (field_indicies positions) line =
      some (joinTab (positions.map
        (fun p => (splitTab (rstripNl line)).getD (p - 1).toNat []))) := by
  unfold processLine field_indicies
  rw [selectFields_map_sub_one _ _ (fun p hp => ⟨hpos p hp, hmax p hp⟩)]
  rfl

theorem C1_witness :
    processLine (field_indicies ([1, 3] : List Int)) "alice\t30\tengineer".toList =
      some (joinTab (([1, 3] : List Int).map
        (fun p => (splitTab (rstripNl "alice\t30\tengineer".toList)).getD
          (p - 1).toNat []))) :=
  C1_requested_fields_output ([1, 3] : List Int) _ (by decide) (by decide)

/-- C2 counterexample: the claim says a field position of 0 faults, and that
on a blank line any position other than 1 faults; in fact position 0 maps to
Python index -1 and succeeds, selecting the (empty) last field of the blank
line. -/
theorem C2_counterexample :
    processLine (field_indicies [0]) [] = some [] ∧
      processLine (field_indicies [0]) [] ≠ none := by decide

/-- C2 (amended): a field position of 0 maps to Python index -1 and selects
the last field of any line without faulting; out-of-range positions fault,
so on a blank line every position other than 1 and 0 faults. -/
theorem C2_amended :
    (∀ line : List Char, processLine (field_indicies [0]) line =
        some ((splitTab (rstripNl line)).getD
          ((splitTab (rstripNl line)).length - 1) [])) ∧
      ∀ p : Int, p ≠ 0 → p ≠ 1 → processLine (field_indicies [p]) [] = none := by
  constructor
  · intro line
    have hlen : 0 < (splitTab (rstripNl line)).length :=
      List.length_pos.mpr (splitTab_ne_nil _)
    unfold processLine field_indicies
    simp only [List.map_cons, List.map_nil, selectFields, pyIndex]
    rw [if_pos (by omega : (0 : Int) - 1 < 0),
      if_neg (by omega :
        ¬(((splitTab (rstripNl line)).length : Int) + (0 - 1) < 0)),
      (by omega : (((splitTab (rstripNl line)).length : Int) + (0 - 1)).toNat
        = (splitTab (rstripNl line)).length - 1),
      get?_eq_some_getD _ _ [] (by omega)]
    rfl
  · intro p hp0 hp1
    unfold processLine field_indicies
    simp only [List.map_cons, List.map_nil]
    have hfs : splitTab (rstripNl []) = [[]] := rfl
    rw [hfs]
    have hnone : pyIndex [([] : List Char)] (p - 1) = none := by
      unfold pyIndex
      split
      · rename_i hlt
        rw [if_pos (by simp only [List.length_cons, List.length_nil]; omega)]
      · rename_i hge
        apply List.get?_eq_none.mpr
        simp only [List.length_cons, List.length_nil]
        omega
    rw [selectFields_eq_none [([] : List Char)] [p - 1] (p - 1)
      (List.mem_singleton.mpr rfl) hnone]
    rfl

theorem C2_witness :
    processLine (field_indicies [0]) "a\tb".toList =
      some ((splitTab (rstripNl "a\tb".toList)).getD
        ((splitTab (rstripNl "a\tb".toList)).length - 1) []) ∧
      processLine (field_indicies [5]) [] = none :=
  ⟨C2_amended.1 _, C2_amended.2 5 (by decide) (by decide)⟩

/-- C3: with positive requested positions, a line with fewer fields than the
maximum requested position faults; the loop terminates abnormally, output
written for earlier lines remains, and no later line is processed. -/
theorem C3_fault_stops (positions : List Int) (pre post : List (List Char))
    (bad : List Char)
    (hpos : ∀ p ∈ positions, 1 ≤ p)
    (hbad : ∃ p ∈ positions, ((splitTab (rstripNl bad)).length : Int) < p)
    (hpre : ∀ l ∈ pre, (processLine (field_indicies positions) l).isSome) :
    runLines (field_indicies positions) (pre ++ bad :: post) =
      ((runLines (field_indicies positions) pre).1, false) := by
  apply runLines_fault _ _ _ _ hpre
  obtain ⟨p, hp, hlt⟩ := hbad
  have h1 : 1 ≤ p := hpos p hp
  have hnone : pyIndex (splitTab (rstripNl bad)) (p - 1) = none := by
    rw [pyIndex_of_nonneg _ _ (by omega)]
    apply List.get?_eq_none.mpr
    omega
  unfold processLine field_indicies
  rw [selectFields_eq_none _ _ (p - 1)
    (List.mem_map_of_mem (fun x => x - 1) hp) hnone]
  rfl

theorem C3_witness :
    runLines (field_indicies [1, 3])
        (["a\tb\tc".toList] ++ "x\ty".toList :: ["p\tq\tr".toList]) =
      ((runLines (field_indicies [1, 3]) ["a\tb\tc".toList]).1, false) :=
  C3_fault_stops [1, 3] ["a\tb\tc".toList] ["p\tq\tr".toList] "x\ty".toList
    (by decide) ⟨3, by decide, by decide⟩ (by decide)

/-- C4 counterexample: the claim says only a single trailing newline is
removed, so a line ending in two newlines would keep one; in fact
`rstrip('\n')` removes them all: field 1 of `"a\n\n"` is `"a"`, not
`"a\n"`. -/
theorem C4_counterexample :
    processLine (field_indicies [1]) "a\n\n".toList = some "a".toList ∧
      "a".toList ≠ "a\n".toList := by decide

/-- C4 (amended): before splitting, each input line has all of its trailing
newlines removed and nothing else: processing is invariant under appending a
trailing newline, the stripped prefix is the line minus a (possibly empty)
trailing run of newlines, and the stripped result never ends in a
newline. -/
theorem C4_amended (idxs : List Int) (s : List Char) :
    processLine idxs (s ++ ['\n']) = processLine idxs s ∧
      (∃ k, s = rstripNl s ++ List.replicate k '\n') ∧
      (rstripNl s).getLast? ≠ some '\n' := by
  refine ⟨?_, rstripNl_replicate s, rstripNl_getLast?_ne s⟩
  unfold processLine
  rw [rstripNl_append_newline]

/-- C5 counterexample: with file A `"a"` (no trailing newline) and file B
`"b\n"`, running over [A, B] gives two output lines, while running over the
single concatenated file gives one. -/
theorem C5_counterexample :
    cutRun [1] ["a".toList, "b\n".toList] ≠
      cutRun [1] ["a".toList ++ "b\n".toList] := by decide

/-- C5 (amended): running the tool over files [A, B] equals running it over
the single concatenated file, provided A's content is empty or
newline-terminated (otherwise A's unterminated final line and B's first
line merge in the concatenated file but not in the two-file run). -/
theorem C5_amended (fields : List Int) (A B : List Char)
    (h : A = [] ∨ A.getLast? = some '\n') :
    cutRun fields [A, B] = cutRun fields [A ++ B] := by
  rcases h with rfl | h
  · simp [cutRun, splitLinesKeep]
  · unfold cutRun
    simp only [List.map_cons, List.map_nil, List.flatten]
    rw [splitLinesKeep_append A B h]
    simp

theorem C5_witness :
    cutRun [1] ["a\n".toList, "b".toList] =
      cutRun [1] ["a\n".toList ++ "b".toList] :=
  C5_amended [1] "a\n".toList "b".toList (Or.inr (by decide))

/-- C6: requesting positions 1..n, in order, on a line of exactly n
tab-separated fields reproduces the line unchanged. -/
theorem C6_identity (line : List Char) (h : rstripNl line = line) :
    processLine (field_indicies ((List.range (splitTab line).length).map
      (fun (i : Nat) => (i : Int) + 1))) line = some line := by
  unfold processLine field_indicies
  rw [h]
  have hbounds : ∀ p ∈ (List.range (splitTab line).length).map
      (fun (i : Nat) => (i : Int) + 1),
      1 ≤ p ∧ p ≤ ((splitTab line).length : Int) := by
    intro p hp
    obtain ⟨i, hi, rfl⟩ := List.mem_map.mp hp
    have := List.mem_range.mp hi
    omega
  rw [selectFields_map_sub_one (splitTab line) _ hbounds]
  simp only [Option.map_some, Option.some.injEq, List.map_map]
  have hc : ((fun p => (splitTab line).getD (p - 1).toNat []) ∘
      fun (i : Nat) => (i : Int) + 1) = fun i => (splitTab line).getD i [] := by
    funext i
    simp only [Function.comp]
    congr 1
    omega
  rw [hc, map_getD_range]
  show some (joinTab (splitTab line)) = some line
  rw [joinTab_splitTab]

theorem C6_witness :
    processLine (field_indicies
        ((List.range (splitTab "a\tb\tc".toList).length).map
          (fun (i : Nat) => (i : Int) + 1))) "a\tb\tc".toList =
      some "a\tb\tc".toList :=
  C6_identity "a\tb\tc".toList (by decide)

/-- C7: a field position requested more than once is emitted once per
occurrence: positions [2, 2] on `"a\tb\tc"` produce `"b\tb"`. -/
theorem C7_duplicate_positions :
    processLine (field_indicies [2, 2]) "a\tb\tc".toList =
      some "b\tb".toList := by decide

/-- C8: on empty input — no files and empty standard input both give zero
lines — the program writes nothing and exits with status 0. -/
theorem C8_empty_input (fields : List Int) :
    cutRun fields [] = ([], true) ∧ cutRun fields [[]] = ([], true) ∧
      exitCode fields [] = 0 ∧ exitCode fields [[]] = 0 :=
  ⟨rfl, rfl, rfl, rfl⟩

/-- C9: a field position p ≤ 0 selects a field counted from the end (Python
negative indexing after subtracting 1): on a line with at least (1 - p)
fields, position p yields the field at offset length - (1 - p) with no
fault; position 0 gives the last field, -1 the second-to-last. -/
theorem C9_negative_positions (p : Int) (line : List Char)
    (hp : p ≤ 0)
    (hlen : (1 - p).toNat ≤ (splitTab (rstripNl line)).length) :
    processLine (field_indicies [p]) line =
      some ((splitTab (rstripNl line)).getD
        ((splitTab (rstripNl line)).length - (1 - p).toNat) []) := by
  unfold processLine field_indicies
  simp only [List.map_cons, List.map_nil, selectFields]
  unfold pyIndex
  rw [if_pos (by omega : p - 1 < 0),
    if_neg (by omega :
      ¬(((splitTab (rstripNl line)).length : Int) + (p - 1) < 0)),
    (by omega : (((splitTab (rstripNl line)).length : Int) + (p - 1)).toNat
      = (splitTab (rstripNl line)).length - (1 - p).toNat),
    get?_eq_some_getD _ _ [] (by omega)]
  rfl

theorem C9_witness :
    processLine (field_indicies [0]) "x\ty".toList =
      some ((splitTab (rstripNl "x\ty".toList)).getD
        ((splitTab (rstripNl "x\ty".toList)).length - (1 - 0 : Int).toNat)
        []) :=
  C9_negative_positions 0 "x\ty".toList (by decide) (by decide)

/-- C10: when every line of the input processes successfully, the output
contains exactly one newline per input line — each `print` appends exactly
one — including for a final input line with no trailing newline, and the
run completes normally. -/
theorem C10_one_newline_per_line (idxs : List Int) (content : List Char)
    (h : ∀ l ∈ splitLinesKeep content, (processLine idxs l).isSome) :
    (runLines idxs (splitLinesKeep content)).1.count '\n' =
        (splitLinesKeep content).length ∧
      (runLines idxs (splitLinesKeep content)).2 = true := by
  apply runLines_count
  intro l hl
  obtain ⟨o, ho⟩ := Option.isSome_iff_exists.mp (h l hl)
  exact ⟨o, ho, processLine_no_nl idxs l o (splitLinesKeep_mem content l hl) ho⟩

theorem C10_witness :
    (runLines (field_indicies [1]) (splitLinesKeep "a\tb".toList)).1.count '\n' =
        (splitLinesKeep "a\tb".toList).length ∧
      (runLines (field_indicies [1]) (splitLinesKeep "a\tb".toList)).2 = true :=
  C10_one_newline_per_line (field_indicies [1]) "a\tb".toList (by decide)

end Cut
